import Mathlib

/-!
# Verification of the Little branch-and-bound TSP solver

Shallow embedding of the core algorithm of the repository
(`LittleAlgorithm` component, canonical arc-based variant: `reduceMatrix`,
`calculateRegrets`, `findMaxRegret`, `hasCycle`, `blockSubtours`,
`buildCompletePath`, `calculateTourCost`, `solveTSP`).

Matrices are row lists of integer cells (`List (List Int)`).  The source
uses JS numbers with two sentinel values: `1e9` (the forbidden /
"infinity" sentinel, placed on the diagonal) and `-999` (the exclusion
sentinel).  All inputs of interest are integer matrices, so `Int` is a
faithful carrier.  Stateful loops of the source become folds or
fuel-indexed recursion; the fuel is always large enough that it is never
exhausted on the executions the theorems mention, so the embedding agrees
with the source on those executions.
-/

namespace Little

/-- Cost matrices: row lists of integer cells (JS `number[][]`). -/
abbrev Mat := List (List Int)

/-- The forbidden / "infinity" sentinel `1e9` of the source. -/
def INF : Int := 1000000000

/-- The exclusion sentinel `-999` of the source. -/
def EXC : Int := -999

/-- Read cell `(i, j)`; out-of-range reads default to `0` (never reached
 in executions the theorems mention). -/
def getCell (m : Mat) (i j : Nat) : Int := (m.getD i []).getD j 0

/-- Write cell `(i, j)` (JS `m[i][j] = v`); out-of-range writes are no-ops. -/
def setCell (m : Mat) (i j : Nat) (v : Int) : Mat :=
  m.set i ((m.getD i []).set j v)

/-! ## `reduceMatrix` (source lines 80-124 of the algorithm component)

Row phase then column phase.  For each line, the minimum over cells that
are neither `1e9` nor `-999` is computed (starting from `1e9`); if it is
`≠ 1e9` and `> 0` it is subtracted from every non-sentinel cell of the
line and accumulated into the returned total. -/

/-- The row-minimum loop of `reduceMatrix`:
`let min = 1e9; for j: if (m[i][j] !== 1e9 && m[i][j] !== -999 && m[i][j] < min) min = m[i][j]`. -/
def rowMinVal (row : List Int) : Int :=
  row.foldl (fun mn c => if c ≠ INF ∧ c ≠ EXC ∧ c < mn then c else mn) INF

/-- One row of the row-reduction phase: returns the updated row and its
 contribution to the reduction total. -/
def reduceRow (row : List Int) : List Int × Int :=
  let mn := rowMinVal row
  if mn ≠ INF ∧ 0 < mn then
    (row.map (fun c => if c ≠ INF ∧ c ≠ EXC then c - mn else c), mn)
  else (row, 0)

/-- Row-reduction phase over all rows. -/
def rowPhase : Mat → Mat × Int
  | [] => ([], 0)
  | row :: rest =>
    let p := reduceRow row
    let q := rowPhase rest
    (p.1 :: q.1, p.2 + q.2)

/-- The column-minimum loop of `reduceMatrix` for column `j`. -/
def colMinVal (m : Mat) (j : Nat) : Int :=
  m.foldl (fun mn row =>
    if row.getD j 0 ≠ INF ∧ row.getD j 0 ≠ EXC ∧ row.getD j 0 < mn
    then row.getD j 0 else mn) INF

/-- Subtract `mn` from every non-sentinel cell of column `j`. -/
def applyColReduction (m : Mat) (j : Nat) (mn : Int) : Mat :=
  m.map (fun row =>
    if row.getD j 0 ≠ INF ∧ row.getD j 0 ≠ EXC
    then row.set j (row.getD j 0 - mn) else row)

/-- One column of the column-reduction phase. -/
def colStep (acc : Mat × Int) (j : Nat) : Mat × Int :=
  let mn := colMinVal acc.1 j
  if mn ≠ INF ∧ 0 < mn then (applyColReduction acc.1 j mn, acc.2 + mn) else acc

/-- Column-reduction phase over columns `0 .. n-1` (the source uses
 `n = matrix.length` for both loops). -/
def colPhase (m : Mat) (n : Nat) : Mat × Int := (List.range n).foldl colStep (m, 0)

/-- `reduceMatrix`: row phase, then column phase; returns the reduced
 matrix and the total reduction. -/
def reduceMatrix (m : Mat) : Mat × Int :=
  let p := rowPhase m
  let q := colPhase p.1 m.length
  (q.1, p.2 + q.2)

/-! ## `calculateRegrets` and `findMaxRegret` (source lines 126-173) -/

/-- Minimum of row `i` excluding column `j` (cells `≠ -999`, start `1e9`),
 as in the inner loop of `calculateRegrets`. -/
def regretRowMin (m : Mat) (n i j : Nat) : Int :=
  (List.range n).foldl (fun mn k =>
    if k ≠ j ∧ getCell m i k ≠ EXC ∧ getCell m i k < mn
    then getCell m i k else mn) INF

/-- Minimum of column `j` excluding row `i` (cells `≠ -999`, start `1e9`). -/
def regretColMin (m : Mat) (n i j : Nat) : Int :=
  (List.range n).foldl (fun mn k =>
    if k ≠ i ∧ getCell m k j ≠ EXC ∧ getCell m k j < mn
    then getCell m k j else mn) INF

/-- The regret of a zero cell: each minimum that stayed `1e9` counts as 0. -/
def regretValue (m : Mat) (n i j : Nat) : Int :=
  (if regretRowMin m n i j = INF then 0 else regretRowMin m n i j) +
  (if regretColMin m n i j = INF then 0 else regretColMin m n i j)

/-- `calculateRegrets`: an `n × n` grid, `0` everywhere except at cells of
 the matrix equal to exactly `0`, where it is the regret. -/
def calculateRegrets (m : Mat) : Mat :=
  (List.range m.length).map (fun i => (List.range m.length).map (fun j =>
    if getCell m i j = 0 then regretValue m m.length i j else 0))

/-- All index pairs `(i, j)` for `i, j < n` in row-major order, the order
 of the nested scan loops of `findMaxRegret`. -/
def allPairs (n : Nat) : List (Nat × Nat) :=
  (List.range n).flatMap (fun i => (List.range n).map (fun j => (i, j)))

/-- One step of the `findMaxRegret` scan.  State is `(maxI, maxJ, maxRegret)`,
 initially `(-1, -1, -1)`; a cell is taken iff the matrix cell is `0` and
 its regret is strictly greater than the current maximum. -/
def scanStep (m regrets : Mat) (s : Int × Int × Int) (p : Nat × Nat) :
    Int × Int × Int :=
  if getCell m p.1 p.2 = 0 ∧ getCell regrets p.1 p.2 > s.2.2 then
    ((p.1 : Int), ((p.2 : Int), getCell regrets p.1 p.2))
  else s

/-- `findMaxRegret`: row-major scan returning `(maxI, maxJ, maxRegret)`,
 `(-1, -1, -1)` when no zero cell exists. -/
def findMaxRegret (m regrets : Mat) : Int × Int × Int :=
  (allPairs m.length).foldl (scanStep m regrets) (-1, -1, -1)

/-! ## `hasCycle` (source lines 176-213)

The source builds a `Map` from arc sources to target lists (insertion
order) and runs a three-colour DFS over its keys.  `colors` is an array
of size `max(keys) + 1`; out-of-range reads give JS `undefined`, which we
model as the colour `3` (neither white `0` nor gray `1`). -/

/-- Targets of the arcs with source `x`, in list order (the `Map` entry). -/
def successorsOf (arcs : List (Nat × Nat)) (x : Nat) : List Nat :=
  (arcs.filter (fun a => a.1 = x)).map (fun a => a.2)

/-- The `Map` keys in insertion order: first occurrences of arc sources. -/
def graphKeys (arcs : List (Nat × Nat)) : List Nat :=
  (arcs.map (fun a => a.1)).eraseDups

/-- Iterate the DFS over a neighbour list, threading the colour array and
 stopping at the first cycle found; `step` performs the recursive DFS
 call on a white node. -/
def dfsGo (step : Nat → List Int → Bool × List Int) :
    List Nat → List Int → Bool × List Int
  | [], colors => (false, colors)
  | nb :: rest, colors =>
    if colors.getD nb 3 = 1 then (true, colors)
    else if colors.getD nb 3 = 0 then
      let r := step nb colors
      if r.1 then (true, r.2) else dfsGo step rest r.2
    else dfsGo step rest colors

/-- The recursive `dfs` of `hasCycle`, with fuel bounding the recursion
 depth (the depth is at most the number of in-range nodes, so the fuel
 passed by `hasCycle` is never exhausted). -/
def dfsNode (arcs : List (Nat × Nat)) : Nat → Nat → List Int → Bool × List Int
  | 0, _, colors => (false, colors)
  | fuel+1, node, colors =>
    let r := dfsGo (dfsNode arcs fuel) (successorsOf arcs node) (colors.set node 1)
    if r.1 then (true, r.2) else (false, r.2.set node 2)

/-- `hasCycle`: three-colour DFS from every key of the arc graph. -/
def hasCycle (arcs : List (Nat × Nat)) : Bool :=
  if arcs.isEmpty then false
  else
    let keys := graphKeys arcs
    let size := keys.foldl max 0 + 1
    let r := keys.foldl (fun (acc : Bool × List Int) node =>
      if acc.1 then acc
      else if acc.2.getD node 3 = 0 then dfsNode arcs (size + 1) node acc.2
      else acc) (false, List.replicate size 0)
    r.1

/-! ## `blockSubtours` (source lines 216-266) and helpers -/

/-- The `findPathEnds` walk of the source: follow the first successor
 until a node without successors is reached.  The fuel passed by callers
 (`arcs.length + 1`) is never exhausted on the acyclic arc sets occurring
 in the engine. -/
def followEnd (arcs : List (Nat × Nat)) : Nat → Nat → Nat
  | 0, cur => cur
  | fuel+1, cur =>
    match successorsOf arcs cur with
    | [] => cur
    | nb :: _ => followEnd arcs fuel nb

/-- One iteration of the `blockSubtours` loop for arc `a = (from, to)`:
 block cell `(end-of-chain-from-to, from)` unless it is a sentinel.  The
 accumulator is the working matrix plus the `blockedArcs` list. -/
def blockStep (arcs : List (Nat × Nat)) (acc : Mat × List (Nat × Nat))
    (a : Nat × Nat) : Mat × List (Nat × Nat) :=
  let e := followEnd arcs (arcs.length + 1) a.2
  let s := a.1
  let c := getCell acc.1 e s
  if c ≠ EXC ∧ c ≠ INF then (setCell acc.1 e s EXC, acc.2 ++ [(e, s)])
  else acc

/-- `blockSubtours`: for each included arc, block the arc that would close
 its chain.  (The union-find argument of the source is never read by the
 function body, so it is not modelled.)  Returns the updated matrix and
 the blocked arcs; the human-readable description string is presentation
 only and is not modelled. -/
def blockSubtours (m : Mat) (arcs : List (Nat × Nat)) : Mat × List (Nat × Nat) :=
  if arcs.isEmpty then (m, [])
  else arcs.foldl (blockStep arcs) (m, [])

/-! ## `buildCompletePath` (source lines 269-298) and `calculateTourCost` -/

/-- The walk of `buildCompletePath`: push the current node and follow its
 first successor, stopping at a node without successors; the fuel equals
 `arcs.length`, modelling the `path.length < includedArcs.length` bound.
 Returns the final current node and the pushed path. -/
def buildPathAux (arcs : List (Nat × Nat)) : Nat → Nat → List Nat → Nat × List Nat
  | 0, cur, path => (cur, path)
  | fuel+1, cur, path =>
    match successorsOf arcs cur with
    | [] => (cur, path)
    | nb :: _ => buildPathAux arcs fuel nb (path ++ [cur])

/-- `buildCompletePath`: walk from node `0`, then append the final node if
 it is not already last. -/
def buildCompletePath (arcs : List (Nat × Nat)) : List Nat :=
  if arcs.isEmpty then []
  else
    let r := buildPathAux arcs arcs.length 0 []
    if r.2 ≠ [] ∧ r.2.getLast? ≠ some r.1 then r.2 ++ [r.1] else r.2

/-- `calculateTourCost` (source lines 503-511): sum of matrix entries along
 consecutive edges of `path`, including the closing edge (index
 `(i+1) % path.length`). -/
def calculateTourCost (path : List Nat) (m : Mat) : Int :=
  (List.range path.length).foldl (fun c i =>
    c + getCell m (path.getD i 0) (path.getD ((i + 1) % path.length) 0)) 0

/-! ## The search engine `solveTSP` (source lines 300-501) -/

/-- A branch-and-bound node, as in the source's `BranchNode` interface. -/
structure BranchNode where
  matrix : Mat
  bound : Int
  includedArcs : List (Nat × Nat)
  excluded : List (Nat × Nat)
  level : Nat
deriving Repr, DecidableEq

/-- Insert a node into a bound-sorted list after all nodes of smaller or
 equal bound (stable, like the JS `sort` by `a.bound - b.bound`). -/
def insertByBound (nd : BranchNode) : List BranchNode → List BranchNode
  | [] => [nd]
  | x :: xs => if x.bound ≤ nd.bound then x :: insertByBound nd xs else nd :: x :: xs

/-- Stable ascending sort of the frontier by bound. -/
def sortByBound (q : List BranchNode) : List BranchNode :=
  q.foldl (fun acc nd => insertByBound nd acc) []

/-- The TYPE 2 (exclude) child of a node at selected arc `(i, j)`: the arc
 cell is set to the exclusion sentinel, the matrix reduced, and the bound
 is the parent bound plus the reduction (source lines 377-392). -/
def excludeChild (cur : BranchNode) (i j : Nat) : BranchNode :=
  let r := reduceMatrix (setCell cur.matrix i j EXC)
  ⟨r.1, cur.bound + r.2, cur.includedArcs, cur.excluded ++ [(i, j)], cur.level⟩

/-- The candidate matrix of the TYPE 1 (include) branch at arc `(i, j)`:
 row `i` and column `j` are sentinel-filled and the reverse arc `(j, i)`
 is blocked (source lines 396-405). -/
def includeCandidateMatrix (cur : BranchNode) (n i j : Nat) : Mat :=
  setCell ((List.range n).foldl (fun m k => setCell (setCell m i k EXC) k j EXC)
    cur.matrix) j i EXC

/-- The TYPE 1 (include) child of a node at arc `(i, j)`: subtour-closing
 arcs are blocked as a side effect, the matrix reduced, and the bound is
 the parent bound plus the arc cost plus the reduction (source lines
 394-435, 452-460). -/
def includeChild (cur : BranchNode) (n i j : Nat) : BranchNode :=
  let arcCost := getCell cur.matrix i j
  let newArcs := cur.includedArcs ++ [(i, j)]
  let b := blockSubtours (includeCandidateMatrix cur n i j) newArcs
  let r := reduceMatrix b.1
  ⟨r.1, cur.bound + arcCost + r.2, newArcs, cur.excluded, cur.level + 1⟩

/-- The main branch-and-bound loop (the `while (queue.length > 0)` loop of
 `solveTSP`), fuel-indexed.  State: frontier, incumbent best cost and
 best path.  Each iteration stably sorts the frontier by bound and pops
 its head, exactly as the source re-sorts and shifts. -/
def solveLoop (cost : Mat) (n : Nat) :
    Nat → List BranchNode → Int → List Nat → Int × List Nat
  | 0, _, bestCost, bestPath => (bestCost, bestPath)
  | fuel+1, queue, bestCost, bestPath =>
    match sortByBound queue with
    | [] => (bestCost, bestPath)
    | cur :: rest =>
      if bestCost ≤ cur.bound then solveLoop cost n fuel rest bestCost bestPath
      else if cur.level = n then
        let cp := buildCompletePath cur.includedArcs
        if cp.length = n ∧ ¬ hasCycle cur.includedArcs then
          let tc := calculateTourCost cp cost
          if tc < bestCost then solveLoop cost n fuel rest tc cp
          else solveLoop cost n fuel rest bestCost bestPath
        else solveLoop cost n fuel rest bestCost bestPath
      else
        let sel := findMaxRegret cur.matrix (calculateRegrets cur.matrix)
        if sel.1 = -1 then solveLoop cost n fuel rest bestCost bestPath
        else
          let i := sel.1.toNat
          let j := sel.2.1.toNat
          let ec := excludeChild cur i j
          let q1 := if ec.bound < bestCost then rest ++ [ec] else rest
          if hasCycle (cur.includedArcs ++ [(i, j)]) then
            solveLoop cost n fuel q1 bestCost bestPath
          else
            let ic := includeChild cur n i j
            let q2 := if ic.bound < bestCost then q1 ++ [ic] else q1
            solveLoop cost n fuel q2 bestCost bestPath

/-- The result record returned by `solveTSP` (the `steps` trace is
 presentation only and is not modelled). -/
structure TSPResult where
  path : List Nat
  cost : Int
deriving Repr, DecidableEq

/-- The working matrix: the input with the diagonal replaced by `1e9`. -/
def initialWorkingMatrix (costMatrix : Mat) : Mat :=
  costMatrix.enum.map (fun r => r.2.enum.map (fun c => if r.1 = c.1 then INF else c.2))

/-- Loop fuel for `solveTSP`; far larger than the number of iterations of
 any run mentioned by the theorems, so it is never exhausted there. -/
def solveFuel : Nat := 100000

/-- `solveTSP`: `null` for fewer than 3 cities; otherwise reduce the
 working matrix, run the branch-and-bound loop from the root node, and
 return the incumbent path and cost (source lines 300-501). -/
def solveTSP (costMatrix : Mat) : Option TSPResult :=
  let n := costMatrix.length
  if n < 3 then none
  else
    let p := reduceMatrix (initialWorkingMatrix costMatrix)
    let r := solveLoop costMatrix n solveFuel [⟨p.1, p.2, [], [], 0⟩] INF []
    some ⟨r.2, r.1⟩

/-- The 4-city example matrix of the specification. -/
def exampleMatrix4 : Mat :=
  [[0, 10, 15, 20], [10, 0, 35, 25], [15, 35, 0, 30], [20, 25, 30, 0]]

/-- A 3-city matrix with finite positive off-diagonal costs. -/
def exampleMatrix3 : Mat := [[0, 1, 2], [1, 0, 3], [2, 3, 0]]

/-- Another 3-city matrix with finite positive off-diagonal costs. -/
def exampleMatrix3b : Mat := [[0, 2, 2], [2, 0, 2], [2, 2, 0]]

/-!
## Theorems on the claims

The kernel evaluates the engine on concrete matrices, so the default
recursion-depth limit is raised.
-/

set_option maxRecDepth 100000

/-- C1: the specification states that on the 4-city example matrix the
 engine returns cost `80`.  The code does not: the search never reaches a
 node of level `n` (its own cycle pre-check also rejects the `n`-th arc
 that would close the tour), so the incumbent is never updated and
 `solveTSP` returns the initial sentinel cost `1e9` with an empty path. -/
theorem claim1_example4_cost_is_sentinel_not_80 :
    solveTSP exampleMatrix4 = some ⟨[], 1000000000⟩ ∧ (1000000000 : Int) ≠ 80 :=
  ⟨by decide, by decide⟩

/-- C2: the specification states that for a valid matrix (here a 3-city
 matrix with finite positive off-diagonal costs) the returned tour is a
 permutation of all `n` indices.  The code returns the empty path, which
 is not a permutation of `range 3`. -/
theorem claim2_returned_path_not_a_permutation :
    solveTSP exampleMatrix3 = some ⟨[], 1000000000⟩ ∧
      ¬ List.Perm ([] : List Nat) (List.range exampleMatrix3.length) :=
  ⟨by decide, by decide⟩

/-- C3: the specification states that the returned `cost` equals the sum
 of original matrix entries along the returned cyclic tour.  The code
 returns cost `1e9` with the empty tour, whose edge sum is `0`. -/
theorem claim3_cost_differs_from_tour_sum :
    solveTSP exampleMatrix3 = some ⟨[], 1000000000⟩ ∧
      calculateTourCost [] exampleMatrix3 ≠ 1000000000 :=
  ⟨by decide, by decide⟩

/-- C4: the specification states that when the frontier empties without a
 feasible leaf the engine reports "no feasible tour" and does not return
 a degenerate result.  On this matrix the frontier does empty without a
 feasible leaf (the search can never push a level-`n` node), and the code
 returns exactly the degenerate result: empty tour, sentinel cost `1e9`. -/
theorem claim4_degenerate_result_on_frontier_exhaustion :
    solveTSP exampleMatrix3b = some ⟨[], 1000000000⟩ :=
  by decide

/-- C8: for fewer than 3 cities the engine refuses to run and returns
 `null` (here `none`): no steps, no tour, no incumbent. -/
theorem claim8_insufficient_cities (m : Mat) (h : m.length < 3) :
    solveTSP m = none := by
  unfold solveTSP
  simp [h]

/-- Witness for C8 at a concrete 2-city matrix. -/
theorem claim8_insufficient_cities_witness :
    ([[0, 5], [5, 0]] : Mat).length < 3 ∧ solveTSP [[0, 5], [5, 0]] = none :=
  ⟨by decide, claim8_insufficient_cities [[0, 5], [5, 0]] (by decide)⟩

/-! ## Generic fold helpers -/

/-- An invariant preserved by every step of a fold holds of its result. -/
theorem foldl_inv {α β : Type} (P : β → Prop) (step : β → α → β) :
    ∀ (l : List α) (acc : β), P acc → (∀ b a, a ∈ l → P b → P (step b a)) →
      P (l.foldl step acc)
  | [], _, h, _ => h
  | a :: l, acc, h, hstep =>
    foldl_inv P step l (step acc a) (hstep acc a (List.mem_cons_self a l) h)
      (fun b a' ha' hb => hstep b a' (List.mem_cons_of_mem a ha') hb)

/-! ## Reduction totals are non-negative

`reduceMatrix` only ever accumulates a line minimum into the total when
that minimum is strictly positive, so the returned reduction is
non-negative for every input matrix. -/

theorem reduceRow_snd_nonneg (row : List Int) : 0 ≤ (reduceRow row).2 := by
  unfold reduceRow
  dsimp only
  split
  · rename_i h
    exact le_of_lt h.2
  · exact le_refl 0

theorem rowPhase_snd_nonneg : ∀ m : Mat, 0 ≤ (rowPhase m).2
  | [] => le_refl 0
  | row :: rest => by
    have h1 := reduceRow_snd_nonneg row
    have h2 := rowPhase_snd_nonneg rest
    unfold rowPhase
    dsimp only
    exact add_nonneg h1 h2

theorem colStep_snd_mono (acc : Mat × Int) (j : Nat) : acc.2 ≤ (colStep acc j).2 := by
  unfold colStep
  dsimp only
  split
  · rename_i h
    exact le_add_of_nonneg_right (le_of_lt h.2)
  · exact le_refl _

theorem colPhase_snd_nonneg (m : Mat) (n : Nat) : 0 ≤ (colPhase m n).2 := by
  unfold colPhase
  exact foldl_inv (fun acc => 0 ≤ acc.2) colStep (List.range n) (m, 0) (le_refl 0)
    (fun b a _ hb => le_trans hb (colStep_snd_mono b a))

theorem reduceMatrix_snd_nonneg (m : Mat) : 0 ≤ (reduceMatrix m).2 := by
  unfold reduceMatrix
  dsimp only
  exact add_nonneg (rowPhase_snd_nonneg m) (colPhase_snd_nonneg (rowPhase m).1 m.length)

/-! ## The selected branching arc is a zero cell -/

/-- Every non-initial state of the `findMaxRegret` scan names a zero cell
 of the matrix. -/
theorem findMaxRegret_sel_zero (m regrets : Mat)
    (h : (findMaxRegret m regrets).1 ≠ -1) :
    getCell m (findMaxRegret m regrets).1.toNat
      (findMaxRegret m regrets).2.1.toNat = 0 := by
  have key : (fun s : Int × Int × Int => s.1 = -1 ∨
      ∃ i j : Nat, s.1 = (i : Int) ∧ s.2.1 = (j : Int) ∧ getCell m i j = 0)
      (findMaxRegret m regrets) := by
    unfold findMaxRegret
    refine foldl_inv (fun s : Int × Int × Int => s.1 = -1 ∨
        ∃ i j : Nat, s.1 = (i : Int) ∧ s.2.1 = (j : Int) ∧ getCell m i j = 0)
      (scanStep m regrets) (allPairs m.length) (-1, -1, -1) (Or.inl rfl) ?_
    intro b a _ hb
    unfold scanStep
    split
    · rename_i hcond
      exact Or.inr ⟨a.1, a.2, rfl, rfl, hcond.1⟩
    · exact hb
  rcases key with hinit | ⟨i, j, hi, hj, hz⟩
  · exact absurd hinit h
  · rw [hi, hj, Int.toNat_natCast, Int.toNat_natCast]
    exact hz

/-- C5: both children of a popped branch node have a bound at least the
 parent's bound: the exclude child's bound is the parent bound plus a
 non-negative reduction, and the include child's bound is the parent
 bound plus the selected arc's cost (which is `0`, since the scan only
 selects zero cells) plus a non-negative reduction. -/
theorem claim5_child_bounds_ge_parent (cur : BranchNode) (n i j : Nat)
    (hne : (findMaxRegret cur.matrix (calculateRegrets cur.matrix)).1 ≠ -1)
    (hi : i = (findMaxRegret cur.matrix (calculateRegrets cur.matrix)).1.toNat)
    (hj : j = (findMaxRegret cur.matrix (calculateRegrets cur.matrix)).2.1.toNat) :
    cur.bound ≤ (excludeChild cur i j).bound ∧
      cur.bound ≤ (includeChild cur n i j).bound := by
  constructor
  · show cur.bound ≤ cur.bound + (reduceMatrix (setCell cur.matrix i j EXC)).2
    exact le_add_of_nonneg_right (reduceMatrix_snd_nonneg _)
  · have hz : getCell cur.matrix i j = 0 := by
      rw [hi, hj]
      exact findMaxRegret_sel_zero _ _ hne
    show cur.bound ≤ cur.bound + getCell cur.matrix i j +
      (reduceMatrix (blockSubtours (includeCandidateMatrix cur n i j)
        (cur.includedArcs ++ [(i, j)])).1).2
    rw [hz, add_zero]
    exact le_add_of_nonneg_right (reduceMatrix_snd_nonneg _)

/-- The root node of the search on the 4-city example. -/
def rootNode4 : BranchNode :=
  ⟨(reduceMatrix (initialWorkingMatrix exampleMatrix4)).1,
    (reduceMatrix (initialWorkingMatrix exampleMatrix4)).2, [], [], 0⟩

/-- The root node of the search on the first 3-city example. -/
def rootNode3 : BranchNode :=
  ⟨(reduceMatrix (initialWorkingMatrix exampleMatrix3)).1,
    (reduceMatrix (initialWorkingMatrix exampleMatrix3)).2, [], [], 0⟩

/-- Witness for C5 at the root node of the 4-city example, where the scan
 selects arc `(0, 1)`. -/
theorem claim5_witness :
    (findMaxRegret rootNode4.matrix (calculateRegrets rootNode4.matrix)).1 ≠ -1 ∧
      (rootNode4.bound ≤ (excludeChild rootNode4 0 1).bound ∧
        rootNode4.bound ≤ (includeChild rootNode4 4 0 1).bound) :=
  ⟨by decide, claim5_child_bounds_ge_parent rootNode4 4 0 1 (by decide) (by decide)
    (by decide)⟩

/-- C10: the arc selected by `findMaxRegret` always has value exactly `0`
 in the node's reduced matrix, so the include bound
 `parent.bound + arc cost + reduction` equals `parent.bound + reduction`,
 the value computed by the variant that omits the arc-cost term. -/
theorem claim10_include_bound_arc_cost_vanishes (cur : BranchNode) (n i j : Nat)
    (hne : (findMaxRegret cur.matrix (calculateRegrets cur.matrix)).1 ≠ -1)
    (hi : i = (findMaxRegret cur.matrix (calculateRegrets cur.matrix)).1.toNat)
    (hj : j = (findMaxRegret cur.matrix (calculateRegrets cur.matrix)).2.1.toNat) :
    getCell cur.matrix i j = 0 ∧
      (includeChild cur n i j).bound = cur.bound +
        (reduceMatrix (blockSubtours (includeCandidateMatrix cur n i j)
          (cur.includedArcs ++ [(i, j)])).1).2 := by
  have hz : getCell cur.matrix i j = 0 := by
    rw [hi, hj]
    exact findMaxRegret_sel_zero _ _ hne
  refine ⟨hz, ?_⟩
  show cur.bound + getCell cur.matrix i j +
      (reduceMatrix (blockSubtours (includeCandidateMatrix cur n i j)
        (cur.includedArcs ++ [(i, j)])).1).2 = _
  rw [hz, add_zero]

/-- Witness for C10 at the root node of the first 3-city example, where
 the scan selects arc `(0, 1)`. -/
theorem claim10_witness :
    (findMaxRegret rootNode3.matrix (calculateRegrets rootNode3.matrix)).1 ≠ -1 ∧
      (getCell rootNode3.matrix 0 1 = 0 ∧
        (includeChild rootNode3 3 0 1).bound = rootNode3.bound +
          (reduceMatrix (blockSubtours (includeCandidateMatrix rootNode3 3 0 1)
            (rootNode3.includedArcs ++ [(0, 1)])).1).2) :=
  ⟨by decide, claim10_include_bound_arc_cost_vanishes rootNode3 3 0 1 (by decide)
    (by decide) (by decide)⟩

/-! ## Sentinel preservation by `reduceMatrix` (C9) -/

/-- A guarded minimum fold that skips sentinel values equals the plain
 minimum fold over the list with the sentinel-valued entries filtered
 out: sentinel entries never participate in the minimum computation. -/
theorem sentinelMinBy_eq {α : Type} (f : α → Int) :
    ∀ (l : List α) (a : Int),
      l.foldl (fun mn x => if f x ≠ INF ∧ f x ≠ EXC ∧ f x < mn then f x else mn) a
      = ((l.filter (fun x => decide (f x ≠ INF ∧ f x ≠ EXC))).map f).foldl min a := by
  intro l
  induction l with
  | nil => intro a; rfl
  | cons x l ih =>
    intro a
    rw [List.foldl_cons, List.filter_cons]
    by_cases h : f x ≠ INF ∧ f x ≠ EXC
    · have hstep : (if f x ≠ INF ∧ f x ≠ EXC ∧ f x < a then f x else a) = min a (f x) := by
        by_cases hlt : f x < a
        · rw [if_pos ⟨h.1, h.2, hlt⟩, min_eq_right (le_of_lt hlt)]
        · rw [if_neg (fun hc => hlt hc.2.2), min_eq_left (le_of_not_lt hlt)]
      rw [hstep, if_pos (by simpa using h), List.map_cons, List.foldl_cons]
      exact ih (min a (f x))
    · have hstep : (if f x ≠ INF ∧ f x ≠ EXC ∧ f x < a then f x else a) = a := by
        rw [if_neg (fun hc => h ⟨hc.1, hc.2.1⟩)]
      rw [hstep, if_neg (by simpa using h)]
      exact ih a

/-- The row-minimum loop ignores sentinel entries. -/
theorem rowMinVal_ignores_sentinels (row : List Int) :
    rowMinVal row =
      (row.filter (fun c => decide (c ≠ INF ∧ c ≠ EXC))).foldl min INF := by
  have h := sentinelMinBy_eq id row INF
  simpa [rowMinVal, id] using h

/-- The column-minimum loop ignores rows whose entry in the column is a
 sentinel. -/
theorem colMinVal_ignores_sentinels (m : Mat) (j : Nat) :
    colMinVal m j =
      ((m.filter (fun row => decide (row.getD j 0 ≠ INF ∧ row.getD j 0 ≠ EXC))).map
        (fun row => row.getD j 0)).foldl min INF := by
  unfold colMinVal
  exact sentinelMinBy_eq (fun row => row.getD j 0) m INF

/-- Row reduction leaves every sentinel cell of a row unchanged. -/
theorem reduceRow_fst_sentinel (row : List Int) (j : Nat)
    (h : row.getD j 0 = INF ∨ row.getD j 0 = EXC) :
    (reduceRow row).1.getD j 0 = row.getD j 0 := by
  unfold reduceRow
  dsimp only
  split
  · rw [List.getD_eq_getElem?_getD
        (row.map (fun c => if c ≠ INF ∧ c ≠ EXC then c - rowMinVal row else c)) j 0,
      List.getElem?_map, List.getD_eq_getElem?_getD row j 0]
    rw [List.getD_eq_getElem?_getD row j 0] at h
    cases hj : row[j]? with
    | none => simp
    | some c =>
      rw [hj] at h
      simp only [Option.getD_some] at h
      simp only [Option.map_some', Option.getD_some]
      rcases h with h | h <;> simp [h]
  · rfl

/-- The row phase is `reduceRow` applied rowwise. -/
theorem rowPhase_fst : ∀ m : Mat, (rowPhase m).1 = m.map (fun row => (reduceRow row).1)
  | [] => rfl
  | row :: rest => by
    unfold rowPhase
    dsimp only
    rw [List.map_cons, rowPhase_fst rest]

/-- The row phase leaves every sentinel cell unchanged. -/
theorem rowPhase_fst_sentinel (m : Mat) (i j : Nat)
    (h : getCell m i j = INF ∨ getCell m i j = EXC) :
    getCell (rowPhase m).1 i j = getCell m i j := by
  rw [rowPhase_fst]
  unfold getCell at *
  rw [List.getD_eq_getElem?_getD (m.map (fun row => (reduceRow row).1)) i [],
    List.getElem?_map, List.getD_eq_getElem?_getD m i []]
  rw [List.getD_eq_getElem?_getD m i []] at h
  cases hi : m[i]? with
  | none => simp
  | some row =>
    rw [hi] at h
    simp only [Option.getD_some] at h
    simp only [Option.map_some', Option.getD_some]
    exact reduceRow_fst_sentinel row j h

/-- One column step leaves every sentinel cell unchanged. -/
theorem colStep_fst_sentinel (acc : Mat × Int) (q i j : Nat)
    (h : getCell acc.1 i j = INF ∨ getCell acc.1 i j = EXC) :
    getCell (colStep acc q).1 i j = getCell acc.1 i j := by
  unfold colStep
  dsimp only
  split
  · dsimp only
    unfold applyColReduction getCell
    unfold getCell at h
    rw [List.getD_eq_getElem?_getD
        (acc.1.map (fun row =>
          if row.getD q 0 ≠ INF ∧ row.getD q 0 ≠ EXC
          then row.set q (row.getD q 0 - colMinVal acc.1 q) else row)) i [],
      List.getElem?_map, List.getD_eq_getElem?_getD acc.1 i []]
    rw [List.getD_eq_getElem?_getD acc.1 i []] at h
    cases hi : acc.1[i]? with
    | none => simp
    | some row =>
      rw [hi] at h
      simp only [Option.getD_some] at h
      simp only [Option.map_some', Option.getD_some]
      by_cases hcond : row.getD q 0 ≠ INF ∧ row.getD q 0 ≠ EXC
      · rw [if_pos hcond]
        by_cases hq : q = j
        · subst hq
          rcases h with h | h
          · exact absurd h hcond.1
          · exact absurd h hcond.2
        · rw [List.getD_eq_getElem?_getD (row.set q (row.getD q 0 - colMinVal acc.1 q)) j 0,
            List.getElem?_set_ne hq, ← List.getD_eq_getElem?_getD]
      · rw [if_neg hcond]
  · rfl

/-- The column phase leaves every sentinel cell unchanged. -/
theorem colPhase_fst_sentinel (m : Mat) (n i j : Nat)
    (h : getCell m i j = INF ∨ getCell m i j = EXC) :
    getCell (colPhase m n).1 i j = getCell m i j := by
  unfold colPhase
  refine foldl_inv (fun acc => getCell acc.1 i j = getCell m i j) colStep
    (List.range n) (m, 0) rfl ?_
  intro b a _ hb
  have hsent : getCell b.1 i j = INF ∨ getCell b.1 i j = EXC := by rw [hb]; exact h
  exact (colStep_fst_sentinel b a i j hsent).trans hb

/-- Full reduction leaves every sentinel cell unchanged. -/
theorem reduceMatrix_fst_sentinel (m : Mat) (i j : Nat)
    (h : getCell m i j = INF ∨ getCell m i j = EXC) :
    getCell (reduceMatrix m).1 i j = getCell m i j := by
  unfold reduceMatrix
  dsimp only
  have h1 := rowPhase_fst_sentinel m i j h
  have hsent1 : getCell (rowPhase m).1 i j = INF ∨ getCell (rowPhase m).1 i j = EXC := by
    rw [h1]; exact h
  exact (colPhase_fst_sentinel (rowPhase m).1 m.length i j hsent1).trans h1

/-- An all-sentinel row contributes zero and is skipped by row reduction. -/
theorem reduceRow_all_sentinel (row : List Int)
    (h : ∀ c ∈ row, c = INF ∨ c = EXC) : reduceRow row = (row, 0) := by
  have hfil : row.filter (fun c => decide (c ≠ INF ∧ c ≠ EXC)) = [] := by
    rw [List.filter_eq_nil_iff]
    intro c hc
    simp only [decide_eq_true_eq]
    rcases h c hc with h' | h'
    · exact fun hc2 => hc2.1 h'
    · exact fun hc2 => hc2.2 h'
  have hmin : rowMinVal row = INF := by
    rw [rowMinVal_ignores_sentinels, hfil]
    rfl
  unfold reduceRow
  dsimp only
  rw [if_neg (fun hc => hc.1 hmin)]

/-- An all-sentinel column contributes zero and is skipped by the column
 step. -/
theorem colStep_all_sentinel (m : Mat) (t : Int) (j : Nat)
    (h : ∀ row ∈ m, row.getD j 0 = INF ∨ row.getD j 0 = EXC) :
    colStep (m, t) j = (m, t) := by
  have hfil : m.filter (fun row => decide (row.getD j 0 ≠ INF ∧ row.getD j 0 ≠ EXC)) = [] := by
    rw [List.filter_eq_nil_iff]
    intro row hrow
    simp only [decide_eq_true_eq]
    rcases h row hrow with h' | h'
    · exact fun hc2 => hc2.1 h'
    · exact fun hc2 => hc2.2 h'
  have hmin : colMinVal m j = INF := by
    rw [colMinVal_ignores_sentinels, hfil]
    rfl
  unfold colStep
  dsimp only
  rw [if_neg (fun hc => hc.1 hmin)]

/-- C9: sentinel cells are never altered by `reduceMatrix` (they appear
 unchanged at the same position in the output); sentinel entries never
 participate in the row or column minimum computations (each loop
 minimum equals the minimum over the non-sentinel entries only); and an
 all-sentinel row or column is skipped, contributing zero to the
 reduction total. -/
theorem claim9_reduction_preserves_sentinels :
    (∀ (m : Mat) (i j : Nat), getCell m i j = INF ∨ getCell m i j = EXC →
      getCell (reduceMatrix m).1 i j = getCell m i j) ∧
    (∀ row : List Int, rowMinVal row =
      (row.filter (fun c => decide (c ≠ INF ∧ c ≠ EXC))).foldl min INF) ∧
    (∀ (m : Mat) (j : Nat), colMinVal m j =
      ((m.filter (fun row => decide (row.getD j 0 ≠ INF ∧ row.getD j 0 ≠ EXC))).map
        (fun row => row.getD j 0)).foldl min INF) ∧
    (∀ row : List Int, (∀ c ∈ row, c = INF ∨ c = EXC) → reduceRow row = (row, 0)) ∧
    (∀ (m : Mat) (t : Int) (j : Nat),
      (∀ row ∈ m, row.getD j 0 = INF ∨ row.getD j 0 = EXC) →
      colStep (m, t) j = (m, t)) :=
  ⟨reduceMatrix_fst_sentinel, rowMinVal_ignores_sentinels,
    colMinVal_ignores_sentinels, reduceRow_all_sentinel, colStep_all_sentinel⟩

/-- Witness for C9 at concrete inputs: a sentinel cell survives a
 reduction that changes its neighbours, and an all-sentinel row and
 column are skipped. -/
theorem claim9_witness :
    (getCell [[EXC, 3], [4, INF]] 0 0 = INF ∨ getCell [[EXC, 3], [4, INF]] 0 0 = EXC) ∧
      getCell (reduceMatrix [[EXC, 3], [4, INF]]).1 0 0 = getCell [[EXC, 3], [4, INF]] 0 0 ∧
      ((∀ c ∈ [INF, EXC, INF], c = INF ∨ c = EXC) ∧
        reduceRow [INF, EXC, INF] = ([INF, EXC, INF], 0)) :=
  ⟨Or.inr (by decide),
    claim9_reduction_preserves_sentinels.1 [[EXC, 3], [4, INF]] 0 0 (Or.inr (by decide)),
    by decide,
    claim9_reduction_preserves_sentinels.2.2.2.1 [INF, EXC, INF] (by decide)⟩

/-! ## Spec-side regret and branching-arc selection (C7)

`specRegret` below renders the specification's wording — "(minimum finite
 value in its row, excluding this column) + (minimum finite value in its
 column, excluding this row); missing minima count as zero" — and is
 compared against the code's `calculateRegrets`/`findMaxRegret`. -/

/-- A cell holding neither sentinel: a "finite" cost in the sense of the
 specification. -/
def finiteCost (c : Int) : Prop := c ≠ EXC ∧ c ≠ INF

instance (c : Int) : Decidable (finiteCost c) :=
  inferInstanceAs (Decidable (c ≠ EXC ∧ c ≠ INF))

/-- Minimum of a list of values, a missing minimum (empty list) counting
 as zero, per the specification wording. -/
def specMinOr0 : List Int → Int
  | [] => 0
  | c :: cs => cs.foldl min c

/-- The finite values of row `i`, excluding column `j`. -/
def rowAlternatives (m : Mat) (n i j : Nat) : List Int :=
  ((List.range n).filter (fun k => decide (k ≠ j ∧ finiteCost (getCell m i k)))).map
    (fun k => getCell m i k)

/-- The finite values of column `j`, excluding row `i`. -/
def colAlternatives (m : Mat) (n i j : Nat) : List Int :=
  ((List.range n).filter (fun k => decide (k ≠ i ∧ finiteCost (getCell m k j)))).map
    (fun k => getCell m k j)

/-- The regret of a cell, following the specification's wording. -/
def specRegret (m : Mat) (n i j : Nat) : Int :=
  specMinOr0 (rowAlternatives m n i j) + specMinOr0 (colAlternatives m n i j)

/-- A well-formed working-matrix cell: a sentinel, or a finite cost in
 `[0, 1e9)`.  Every matrix the engine derives from a valid input (finite
 non-negative costs below the sentinel) consists of such cells. -/
def wfCell (c : Int) : Prop := c = EXC ∨ c = INF ∨ (0 ≤ c ∧ c < INF)

instance (c : Int) : Decidable (wfCell c) :=
  inferInstanceAs (Decidable (c = EXC ∨ c = INF ∨ (0 ≤ c ∧ c < INF)))

/-- Row-major order on index pairs, strict version. -/
def pairLT (p q : Nat × Nat) : Prop := p.1 < q.1 ∨ (p.1 = q.1 ∧ p.2 < q.2)

/-- A guarded minimum fold over indices that skips excluded indices and
 `-999` values equals the plain minimum fold over the kept values. -/
theorem guardedMinBy_eq (f : Nat → Int) (p : Nat → Prop) [DecidablePred p] :
    ∀ (l : List Nat) (a : Int),
      l.foldl (fun mn k => if p k ∧ f k ≠ EXC ∧ f k < mn then f k else mn) a
      = ((l.filter (fun k => decide (p k ∧ f k ≠ EXC))).map f).foldl min a := by
  intro l
  induction l with
  | nil => intro a; rfl
  | cons x l ih =>
    intro a
    rw [List.foldl_cons, List.filter_cons]
    by_cases h : p x ∧ f x ≠ EXC
    · have hstep : (if p x ∧ f x ≠ EXC ∧ f x < a then f x else a) = min a (f x) := by
        by_cases hlt : f x < a
        · rw [if_pos ⟨h.1, h.2, hlt⟩, min_eq_right (le_of_lt hlt)]
        · rw [if_neg (fun hc => hlt hc.2.2), min_eq_left (le_of_not_lt hlt)]
      rw [hstep, if_pos (by simpa using h), List.map_cons, List.foldl_cons]
      exact ih (min a (f x))
    · have hstep : (if p x ∧ f x ≠ EXC ∧ f x < a then f x else a) = a := by
        rw [if_neg (fun hc => h ⟨hc.1, hc.2.1⟩)]
      rw [hstep, if_neg (by simpa using h)]
      exact ih a

/-- Values equal to `1e9` can be dropped from a minimum fold started at
 or below `1e9`, when every kept value is at most `1e9`. -/
theorem minfold_drop_INF (f : Nat → Int) (q : Nat → Prop) [DecidablePred q] :
    ∀ (l : List Nat) (a : Int), a ≤ INF → (∀ k ∈ l, q k → f k ≤ INF) →
      ((l.filter (fun k => decide (q k))).map f).foldl min a
      = ((l.filter (fun k => decide (q k ∧ f k ≠ INF))).map f).foldl min a := by
  intro l
  induction l with
  | nil => intro a _ _; rfl
  | cons x l ih =>
    intro a ha hq
    rw [List.filter_cons, List.filter_cons]
    by_cases h : q x
    · by_cases hINF : f x = INF
      · rw [if_pos (by simpa using h), if_neg (by simp [hINF])]
        rw [List.map_cons, List.foldl_cons, hINF, min_eq_left ha]
        exact ih a ha (fun k hk => hq k (List.mem_cons_of_mem x hk))
      · rw [if_pos (by simpa using h), if_pos (by simp [h, hINF])]
        rw [List.map_cons, List.map_cons, List.foldl_cons, List.foldl_cons]
        exact ih (min a (f x)) (le_trans (min_le_left a (f x)) ha)
          (fun k hk => hq k (List.mem_cons_of_mem x hk))
    · rw [if_neg (by simpa using h), if_neg (by simp [h])]
      exact ih a ha (fun k hk => hq k (List.mem_cons_of_mem x hk))

/-- A minimum fold is at most its starting value. -/
theorem foldl_min_le (l : List Int) : ∀ a : Int, l.foldl min a ≤ a := by
  induction l with
  | nil => intro a; exact le_refl a
  | cons c l ih =>
    intro a
    rw [List.foldl_cons]
    exact le_trans (ih (min a c)) (min_le_left a c)

/-- A minimum fold over non-negative values from a non-negative start is
 non-negative. -/
theorem foldl_min_nonneg (l : List Int) : ∀ a : Int, 0 ≤ a → (∀ c ∈ l, 0 ≤ c) →
    0 ≤ l.foldl min a := by
  induction l with
  | nil => intro a ha _; exact ha
  | cons c l ih =>
    intro a ha hl
    rw [List.foldl_cons]
    exact ih (min a c) (le_min ha (hl c (List.mem_cons_self c l)))
      (fun x hx => hl x (List.mem_cons_of_mem c hx))

/-- A minimum fold started at `1e9` over a non-empty list of values below
 `1e9` computes the list's minimum, i.e. `specMinOr0` of the list. -/
theorem minfold_eq_specMinOr0 (l : List Int) (hne : l ≠ [])
    (hlt : ∀ c ∈ l, c < INF) : l.foldl min INF = specMinOr0 l := by
  cases l with
  | nil => exact absurd rfl hne
  | cons c cs =>
    rw [List.foldl_cons, min_eq_right (le_of_lt (hlt c (List.mem_cons_self c cs)))]
    rfl

/-- The code's guarded minimum-with-`1e9`-as-missing computation agrees
 with the specification's "minimum finite value, missing counts as zero"
 on well-formed cell values. -/
theorem guardedMin_if_eq_specMinOr0 (f : Nat → Int) (e : Nat) (n : Nat)
    (hwf : ∀ k, k < n → wfCell (f k)) :
    (if (List.range n).foldl
          (fun mn k => if k ≠ e ∧ f k ≠ EXC ∧ f k < mn then f k else mn) INF = INF
     then 0
     else (List.range n).foldl
          (fun mn k => if k ≠ e ∧ f k ≠ EXC ∧ f k < mn then f k else mn) INF)
    = specMinOr0 (((List.range n).filter
        (fun k => decide (k ≠ e ∧ finiteCost (f k)))).map f) := by
  have hub : ∀ k ∈ List.range n, (k ≠ e ∧ f k ≠ EXC) → f k ≤ INF := by
    intro k hk _
    rcases hwf k (List.mem_range.mp hk) with h | h | h
    · rw [h]; decide
    · rw [h]
    · exact le_of_lt h.2
  have hfil : (List.range n).filter
        (fun k => decide ((k ≠ e ∧ f k ≠ EXC) ∧ f k ≠ INF))
      = (List.range n).filter (fun k => decide (k ≠ e ∧ finiteCost (f k))) := by
    apply List.filter_congr
    intro k _
    apply decide_eq_decide.mpr
    unfold finiteCost
    tauto
  have hchain : (List.range n).foldl
        (fun mn k => if k ≠ e ∧ f k ≠ EXC ∧ f k < mn then f k else mn) INF
      = (((List.range n).filter
          (fun k => decide (k ≠ e ∧ finiteCost (f k)))).map f).foldl min INF := by
    rw [guardedMinBy_eq f (fun k => k ≠ e) (List.range n) INF,
      minfold_drop_INF f (fun k => k ≠ e ∧ f k ≠ EXC) (List.range n) INF
        (le_refl INF) hub, hfil]
  rw [hchain]
  have hlt : ∀ x ∈ ((List.range n).filter
      (fun k => decide (k ≠ e ∧ finiteCost (f k)))).map f, x < INF := by
    intro x hx
    rcases List.mem_map.mp hx with ⟨k, hk, rfl⟩
    rcases List.mem_filter.mp hk with ⟨hkr, hkp⟩
    have hkp' : k ≠ e ∧ finiteCost (f k) := of_decide_eq_true hkp
    rcases hwf k (List.mem_range.mp hkr) with h | h | h
    · exact absurd h hkp'.2.1
    · exact absurd h hkp'.2.2
    · exact h.2
  cases hA : ((List.range n).filter (fun k => decide (k ≠ e ∧ finiteCost (f k)))).map f with
  | nil => simp [specMinOr0]
  | cons c cs =>
    rw [hA] at hlt
    have heq : (c :: cs).foldl min INF = specMinOr0 (c :: cs) :=
      minfold_eq_specMinOr0 (c :: cs) (by simp) hlt
    rw [heq]
    have hc : c < INF := hlt c (List.mem_cons_self c cs)
    have hle : specMinOr0 (c :: cs) ≤ c := by
      simp only [specMinOr0]
      exact foldl_min_le cs c
    rw [if_neg (ne_of_lt (lt_of_le_of_lt hle hc))]

/-- The code's regret of a cell equals the specification's regret, on a
 matrix whose row `i` and column `j` consist of well-formed cells. -/
theorem regretValue_eq_specRegret (m : Mat) (n i j : Nat)
    (hrow : ∀ k, k < n → wfCell (getCell m i k))
    (hcol : ∀ k, k < n → wfCell (getCell m k j)) :
    regretValue m n i j = specRegret m n i j := by
  unfold regretValue specRegret rowAlternatives colAlternatives regretRowMin regretColMin
  rw [guardedMin_if_eq_specMinOr0 (fun k => getCell m i k) j n hrow,
    guardedMin_if_eq_specMinOr0 (fun k => getCell m k j) i n hcol]

/-- Reading a mapped range list at an in-range index. -/
theorem getD_map_range {α : Type} (g : Nat → α) (d : α) (n k : Nat) (hk : k < n) :
    ((List.range n).map g).getD k d = g k := by
  rw [List.getD_eq_getElem?_getD, List.getElem?_map, List.getElem?_range hk]
  rfl

/-- In-range cells of a square well-formed matrix are well-formed. -/
theorem wf_getCell (m : Mat) (hsq : ∀ row ∈ m, row.length = m.length)
    (hwf : ∀ row ∈ m, ∀ c ∈ row, wfCell c) (i j : Nat)
    (hi : i < m.length) (hj : j < m.length) : wfCell (getCell m i j) := by
  unfold getCell
  rw [List.getD_eq_getElem?_getD m i [], List.getElem?_eq_getElem hi]
  have hrow : m[i] ∈ m := List.getElem_mem hi
  have hlen : m[i].length = m.length := hsq m[i] hrow
  rw [Option.getD_some, List.getD_eq_getElem?_getD m[i] j 0,
    List.getElem?_eq_getElem (by rw [hlen]; exact hj), Option.getD_some]
  exact hwf m[i] hrow _ (List.getElem_mem _)

/-- A cell of the regret grid: the code's regret for zero cells of the
 matrix, `0` elsewhere. -/
theorem getCell_calculateRegrets (m : Mat) (i j : Nat)
    (hi : i < m.length) (hj : j < m.length) :
    getCell (calculateRegrets m) i j =
      if getCell m i j = 0 then regretValue m m.length i j else 0 := by
  unfold calculateRegrets getCell
  rw [getD_map_range _ [] m.length i hi]
  exact getD_map_range _ 0 m.length j hj

/-- Membership in the row-major pair enumeration. -/
theorem mem_allPairs (n : Nat) (p : Nat × Nat) :
    p ∈ allPairs n ↔ p.1 < n ∧ p.2 < n := by
  unfold allPairs
  constructor
  · intro hp
    rcases List.mem_flatMap.mp hp with ⟨i, hi, hp'⟩
    rcases List.mem_map.mp hp' with ⟨j, hj, rfl⟩
    exact ⟨List.mem_range.mp hi, List.mem_range.mp hj⟩
  · intro ⟨h1, h2⟩
    refine List.mem_flatMap.mpr ⟨p.1, List.mem_range.mpr h1, ?_⟩
    exact List.mem_map.mpr ⟨p.2, List.mem_range.mpr h2, rfl⟩

/-- The row-major pair enumeration over strictly increasing index lists
 is strictly increasing in row-major order. -/
theorem pairwise_product (I J : List Nat) (hI : I.Pairwise (· < ·))
    (hJ : J.Pairwise (· < ·)) :
    (I.flatMap (fun i => J.map (fun j => (i, j)))).Pairwise pairLT := by
  induction I with
  | nil => exact List.Pairwise.nil
  | cons i I ih =>
    rw [List.flatMap_cons]
    rcases List.pairwise_cons.mp hI with ⟨hiI, hI'⟩
    apply List.pairwise_append.mpr
    refine ⟨?_, ih hI', ?_⟩
    · exact List.Pairwise.map _ (fun a b hab => Or.inr ⟨rfl, hab⟩) hJ
    · intro p hp q hq
      rcases List.mem_map.mp hp with ⟨j, _, rfl⟩
      rcases List.mem_flatMap.mp hq with ⟨i', hi', hq'⟩
      rcases List.mem_map.mp hq' with ⟨j', _, rfl⟩
      exact Or.inl (hiI i' hi')

/-- The row-major pair enumeration is strictly increasing. -/
theorem pairwise_allPairs (n : Nat) : (allPairs n).Pairwise pairLT :=
  pairwise_product (List.range n) (List.range n)
    (List.pairwise_lt_range n) (List.pairwise_lt_range n)

/-- Full characterisation of the `findMaxRegret` scan over any pair list:
 either no pair beats the initial state and the state is returned, or
 the result names the first pair attaining the maximal regret among zero
 cells: every earlier zero cell has strictly smaller regret, every later
 zero cell has regret at most the result's. -/
theorem scan_characterization (m regrets : Mat) :
    ∀ (l : List (Nat × Nat)) (s : Int × Int × Int),
      (l.foldl (scanStep m regrets) s = s ∧
        ∀ p ∈ l, getCell m p.1 p.2 = 0 → getCell regrets p.1 p.2 ≤ s.2.2)
      ∨ (∃ l₁ p l₂, l = l₁ ++ p :: l₂ ∧ getCell m p.1 p.2 = 0 ∧
          getCell regrets p.1 p.2 > s.2.2 ∧
          l.foldl (scanStep m regrets) s =
            ((p.1 : Int), ((p.2 : Int), getCell regrets p.1 p.2)) ∧
          (∀ q ∈ l₁, getCell m q.1 q.2 = 0 →
            getCell regrets q.1 q.2 < getCell regrets p.1 p.2) ∧
          (∀ q ∈ l₂, getCell m q.1 q.2 = 0 →
            getCell regrets q.1 q.2 ≤ getCell regrets p.1 p.2)) := by
  intro l
  induction l with
  | nil => intro s; exact Or.inl ⟨rfl, fun p hp => absurd hp (List.not_mem_nil p)⟩
  | cons a l ih =>
    intro s
    by_cases hcond : getCell m a.1 a.2 = 0 ∧ getCell regrets a.1 a.2 > s.2.2
    · have hstep : scanStep m regrets s a =
          ((a.1 : Int), ((a.2 : Int), getCell regrets a.1 a.2)) := by
        unfold scanStep
        rw [if_pos hcond]
      rw [List.foldl_cons, hstep]
      rcases ih ((a.1 : Int), ((a.2 : Int), getCell regrets a.1 a.2)) with
        ⟨heq, hall⟩ | ⟨l₁, p, l₂, hsplit, hz, hgt, heq, hbefore, hafter⟩
      · refine Or.inr ⟨[], a, l, rfl, hcond.1, hcond.2, heq, ?_, ?_⟩
        · intro q hq
          exact absurd hq (List.not_mem_nil q)
        · exact hall
      · refine Or.inr ⟨a :: l₁, p, l₂, by rw [hsplit]; rfl, hz, ?_, heq, ?_, hafter⟩
        · exact lt_trans hcond.2 hgt
        · intro q hq hqz
          rcases List.mem_cons.mp hq with rfl | hq'
          · exact hgt
          · exact hbefore q hq' hqz
    · have hstep : scanStep m regrets s a = s := by
        unfold scanStep
        rw [if_neg hcond]
      rw [List.foldl_cons, hstep]
      rcases ih s with ⟨heq, hall⟩ | ⟨l₁, p, l₂, hsplit, hz, hgt, heq, hbefore, hafter⟩
      · refine Or.inl ⟨heq, ?_⟩
        intro q hq hqz
        rcases List.mem_cons.mp hq with rfl | hq'
        · exact le_of_not_lt (fun hlt => hcond ⟨hqz, hlt⟩)
        · exact hall q hq' hqz
      · refine Or.inr ⟨a :: l₁, p, l₂, by rw [hsplit]; rfl, hz, hgt, heq, ?_, hafter⟩
        intro q hq hqz
        rcases List.mem_cons.mp hq with rfl | hq'
        · exact lt_of_le_of_lt (le_of_not_lt (fun hlt => hcond ⟨hqz, hlt⟩)) hgt
        · exact hbefore q hq' hqz

/-- A list of non-negative values has non-negative `specMinOr0`. -/
theorem specMinOr0_nonneg (L : List Int) (hL : ∀ c ∈ L, 0 ≤ c) :
    0 ≤ specMinOr0 L := by
  cases L with
  | nil => exact le_refl 0
  | cons c cs =>
    simp only [specMinOr0]
    exact foldl_min_nonneg cs c (hL c (List.mem_cons_self c cs))
      (fun x hx => hL x (List.mem_cons_of_mem c hx))

/-- In a well-formed matrix, every cell read that yields a non-sentinel
 value yields a non-negative value (out-of-range reads default to `0`). -/
theorem getCell_nonneg_of_finite (m : Mat)
    (hwf : ∀ row ∈ m, ∀ c ∈ row, wfCell c) (i j : Nat)
    (hfin : finiteCost (getCell m i j)) : 0 ≤ getCell m i j := by
  unfold getCell at *
  by_cases hi : i < m.length
  · rw [List.getD_eq_getElem?_getD m i [], List.getElem?_eq_getElem hi,
      Option.getD_some] at *
    have hrow : m[i] ∈ m := List.getElem_mem hi
    by_cases hj : j < m[i].length
    · rw [List.getD_eq_getElem?_getD m[i] j 0, List.getElem?_eq_getElem hj,
        Option.getD_some] at *
      rcases hwf m[i] hrow _ (List.getElem_mem hj) with h | h | h
      · exact absurd h hfin.1
      · exact absurd h hfin.2
      · exact h.1
    · rw [List.getD_eq_getElem?_getD m[i] j 0,
        List.getElem?_eq_none (le_of_not_lt hj)]
      exact le_refl 0
  · rw [List.getD_eq_getElem?_getD m i [], List.getElem?_eq_none (le_of_not_lt hi)]
    exact le_refl 0

/-- On a well-formed matrix the spec regret is non-negative. -/
theorem specRegret_nonneg (m : Mat) (i j : Nat)
    (hwf : ∀ row ∈ m, ∀ c ∈ row, wfCell c) :
    0 ≤ specRegret m m.length i j := by
  unfold specRegret
  apply add_nonneg
  · apply specMinOr0_nonneg
    intro c hc
    rcases List.mem_map.mp hc with ⟨k, hk, rfl⟩
    rcases List.mem_filter.mp hk with ⟨_, hkp⟩
    exact getCell_nonneg_of_finite m hwf i k (of_decide_eq_true hkp).2
  · apply specMinOr0_nonneg
    intro c hc
    rcases List.mem_map.mp hc with ⟨k, hk, rfl⟩
    rcases List.mem_filter.mp hk with ⟨_, hkp⟩
    exact getCell_nonneg_of_finite m hwf k j (of_decide_eq_true hkp).2

/-- C7: on a square well-formed (reduced) matrix, the no-candidate signal
 `-1` is returned iff the matrix has no zero cell; and otherwise the
 selected branching arc is a zero cell whose regret — the specification's
 row-minimum plus column-minimum of finite alternatives, missing minima
 counting as zero — is maximal among all zero cells, ties broken by
 row-major scan order (the first such cell wins). -/
theorem claim7_branching_arc_selection (m : Mat)
    (hsq : ∀ row ∈ m, row.length = m.length)
    (hwf : ∀ row ∈ m, ∀ c ∈ row, wfCell c) :
    ((findMaxRegret m (calculateRegrets m)).1 = -1 ↔
      ∀ i j : Nat, i < m.length → j < m.length → getCell m i j ≠ 0) ∧
    ((findMaxRegret m (calculateRegrets m)).1 ≠ -1 →
      ∃ i j : Nat, i < m.length ∧ j < m.length ∧
        findMaxRegret m (calculateRegrets m) =
          ((i : Int), ((j : Int), specRegret m m.length i j)) ∧
        getCell m i j = 0 ∧
        (∀ a b : Nat, a < m.length → b < m.length → getCell m a b = 0 →
          specRegret m m.length a b ≤ specRegret m m.length i j) ∧
        (∀ a b : Nat, a < m.length → b < m.length → getCell m a b = 0 →
          specRegret m m.length a b = specRegret m m.length i j →
          (i < a ∨ (i = a ∧ j ≤ b)))) := by
  have hreg : ∀ a b : Nat, a < m.length → b < m.length → getCell m a b = 0 →
      getCell (calculateRegrets m) a b = specRegret m m.length a b := by
    intro a b ha hb hz
    rw [getCell_calculateRegrets m a b ha hb, if_pos hz]
    exact regretValue_eq_specRegret m m.length a b
      (fun k hk => wf_getCell m hsq hwf a k ha hk)
      (fun k hk => wf_getCell m hsq hwf k b hk hb)
  have hfmr : findMaxRegret m (calculateRegrets m) =
      (allPairs m.length).foldl (scanStep m (calculateRegrets m)) (-1, -1, -1) := rfl
  rcases scan_characterization m (calculateRegrets m) (allPairs m.length)
      (-1, -1, -1) with ⟨heq, hall⟩ | ⟨l₁, p, l₂, hsplit, hz, hgt, heq, hbefore, hafter⟩
  · have hsel : findMaxRegret m (calculateRegrets m) = (-1, -1, -1) := by
      rw [hfmr, heq]
    have hnozero : ∀ i j : Nat, i < m.length → j < m.length → getCell m i j ≠ 0 := by
      intro i j hi hj hz
      have hmem : ((i, j) : Nat × Nat) ∈ allPairs m.length :=
        (mem_allPairs m.length (i, j)).mpr ⟨hi, hj⟩
      have hle := hall (i, j) hmem hz
      rw [hreg i j hi hj hz] at hle
      have hle2 : specRegret m m.length i j ≤ -1 := hle
      have := specRegret_nonneg m i j hwf
      omega
    constructor
    · exact ⟨fun _ => hnozero, fun _ => by rw [hsel]⟩
    · intro hne
      exact absurd (by rw [hsel]) hne
  · have hp : p ∈ allPairs m.length := by
      rw [hsplit]
      exact List.mem_append_right l₁ (List.mem_cons_self p l₂)
    rcases (mem_allPairs m.length p).mp hp with ⟨hp1, hp2⟩
    have hsel : findMaxRegret m (calculateRegrets m) =
        ((p.1 : Int), ((p.2 : Int), getCell (calculateRegrets m) p.1 p.2)) := by
      rw [hfmr, heq]
    have hselne : (findMaxRegret m (calculateRegrets m)).1 ≠ -1 := by
      rw [hsel]
      intro hcon
      simp only at hcon
      omega
    have hmax : ∀ a b : Nat, a < m.length → b < m.length → getCell m a b = 0 →
        specRegret m m.length a b ≤ specRegret m m.length p.1 p.2 := by
      intro a b ha hb hzab
      have hmem : ((a, b) : Nat × Nat) ∈ allPairs m.length :=
        (mem_allPairs m.length (a, b)).mpr ⟨ha, hb⟩
      rw [hsplit] at hmem
      rw [← hreg a b ha hb hzab, ← hreg p.1 p.2 hp1 hp2 hz]
      rcases List.mem_append.mp hmem with hin | hin
      · exact le_of_lt (hbefore (a, b) hin hzab)
      · rcases List.mem_cons.mp hin with hpe | hin
        · subst hpe
          exact le_refl _
        · exact hafter (a, b) hin hzab
    constructor
    · constructor
      · intro habs
        exact absurd habs hselne
      · intro hforall
        exact absurd hz (hforall p.1 p.2 hp1 hp2)
    · intro _
      refine ⟨p.1, p.2, hp1, hp2, ?_, hz, hmax, ?_⟩
      · rw [hsel, hreg p.1 p.2 hp1 hp2 hz]
      · intro a b ha hb hzab heqreg
        have hmem : ((a, b) : Nat × Nat) ∈ allPairs m.length :=
          (mem_allPairs m.length (a, b)).mpr ⟨ha, hb⟩
        rw [hsplit] at hmem
        rcases List.mem_append.mp hmem with hin | hin
        · exfalso
          have hlt := hbefore (a, b) hin hzab
          rw [hreg a b ha hb hzab, hreg p.1 p.2 hp1 hp2 hz] at hlt
          omega
        · rcases List.mem_cons.mp hin with hpe | hin
          · subst hpe
            exact Or.inr ⟨rfl, le_refl b⟩
          · have hpw := pairwise_allPairs m.length
            rw [hsplit] at hpw
            have hrel := (List.pairwise_cons.mp (List.pairwise_append.mp hpw).2.1).1
            rcases hrel (a, b) hin with hlt | ⟨heq1, hlt2⟩
            · exact Or.inl hlt
            · exact Or.inr ⟨heq1, le_of_lt hlt2⟩

/-- Witness for C7 at the reduced matrix of the 4-city example (square
 and well-formed), instantiating the no-candidate iff. -/
theorem claim7_witness :
    (∀ row ∈ rootNode4.matrix, row.length = rootNode4.matrix.length) ∧
    (∀ row ∈ rootNode4.matrix, ∀ c ∈ row, wfCell c) ∧
    ((findMaxRegret rootNode4.matrix (calculateRegrets rootNode4.matrix)).1 = -1 ↔
      ∀ i j : Nat, i < rootNode4.matrix.length → j < rootNode4.matrix.length →
        getCell rootNode4.matrix i j ≠ 0) :=
  ⟨by decide, by decide,
    (claim7_branching_arc_selection rootNode4.matrix (by decide) (by decide)).1⟩

/-! ## The Connectivity Guard blocks the chain-closing arc (C6)

The arc sets reaching `blockSubtours` in the engine have pairwise
 distinct sources (each inclusion sentinel-fills the chosen row), and are
 acyclic (the `hasCycle` pre-check rejected them); acyclicity is carried
 here as a topological rank certificate.  `chainEnd`/`chainStart` render
 the specification's "end of the chain containing `v`" and "start of the
 chain containing `u`", located by following single-outdegree links
 (forwards, respectively backwards). -/

/-- The end of the chain containing `x`: follow successor links until a
 node without successor, with the fuel `blockSubtours` itself uses. -/
def chainEnd (arcs : List (Nat × Nat)) (x : Nat) : Nat :=
  followEnd arcs (arcs.length + 1) x

/-- The arc set with every arc reversed. -/
def revArcs (arcs : List (Nat × Nat)) : List (Nat × Nat) :=
  arcs.map (fun a => (a.2, a.1))

/-- The start of the chain containing `x`: follow predecessor links until
 a node without predecessor. -/
def chainStart (arcs : List (Nat × Nat)) (x : Nat) : Nat :=
  followEnd (revArcs arcs) (arcs.length + 1) x

/-- Successor-list membership comes from arc membership. -/
theorem mem_of_mem_successorsOf (arcs : List (Nat × Nat)) (x y : Nat)
    (h : y ∈ successorsOf arcs x) : (x, y) ∈ arcs := by
  unfold successorsOf at h
  rcases List.mem_map.mp h with ⟨⟨a1, a2⟩, ha, rfl⟩
  rcases List.mem_filter.mp ha with ⟨hmem, hfst⟩
  have h1 : a1 = x := of_decide_eq_true hfst
  subst h1
  exact hmem

/-- Reversed-arc membership. -/
theorem mem_arcs_of_mem_revArcs (arcs : List (Nat × Nat)) (w x : Nat)
    (h : (w, x) ∈ revArcs arcs) : (x, w) ∈ arcs := by
  unfold revArcs at h
  rcases List.mem_map.mp h with ⟨a, ha, heq⟩
  rcases a with ⟨a1, a2⟩
  have h1 : a2 = w := congrArg Prod.fst heq
  have h2 : a1 = x := congrArg Prod.snd heq
  rw [← h1, ← h2]
  exact ha

/-- With pairwise distinct sources, the successor list of the source of
 an arc is exactly its one target. -/
theorem successorsOf_eq_single (arcs : List (Nat × Nat)) :
    arcs.Pairwise (fun a b => a.1 ≠ b.1) → ∀ x y : Nat, (x, y) ∈ arcs →
      successorsOf arcs x = [y] := by
  induction arcs with
  | nil => intro _ x y h; cases h
  | cons a rest ih =>
    intro hsrc x y h
    rcases List.pairwise_cons.mp hsrc with ⟨ha, hrest⟩
    unfold successorsOf
    rcases List.mem_cons.mp h with rfl | hmem
    · rw [List.filter_cons, if_pos (by simp)]
      have hrestnil : rest.filter (fun b => decide (b.1 = (x, y).1)) = [] := by
        rw [List.filter_eq_nil_iff]
        intro b hb
        simp only [decide_eq_true_eq]
        intro hbx
        exact (ha b hb) hbx.symm
      rw [hrestnil]
      rfl
    · have hax : ¬ a.1 = x := fun he => (ha (x, y) hmem) (by rw [he])
      rw [List.filter_cons, if_neg (by simpa using hax)]
      exact ih hrest x y hmem

/-- Filtering with a weaker predicate keeps at least as many elements. -/
theorem length_filter_le_of_imp {α : Type} (p q : α → Bool) :
    ∀ l : List α, (∀ a ∈ l, q a = true → p a = true) →
      (l.filter q).length ≤ (l.filter p).length := by
  intro l
  induction l with
  | nil => intro _; exact le_refl 0
  | cons a l ih =>
    intro h
    have ih' := ih (fun b hb => h b (List.mem_cons_of_mem a hb))
    by_cases hq : q a = true
    · rw [List.filter_cons, List.filter_cons, if_pos hq,
        if_pos (h a (List.mem_cons_self a l) hq)]
      simpa using ih'
    · rw [List.filter_cons, if_neg hq]
      by_cases hp : p a = true
      · rw [List.filter_cons, if_pos hp]
        exact le_trans ih' (by simp)
      · rw [List.filter_cons, if_neg hp]
        exact ih'

/-- Filtering with a strictly weaker predicate (witnessed on a member)
 keeps strictly more elements. -/
theorem length_filter_lt_of_imp {α : Type} (p q : α → Bool) (w : α) :
    ∀ l : List α, w ∈ l → p w = true → q w = false →
      (∀ a ∈ l, q a = true → p a = true) →
      (l.filter q).length < (l.filter p).length := by
  intro l
  induction l with
  | nil => intro hm; cases hm
  | cons a l ih =>
    intro hm hpw hqw h
    rcases List.mem_cons.mp hm with rfl | hm'
    · rw [List.filter_cons, List.filter_cons, if_pos hpw, if_neg (by simp [hqw])]
      have := length_filter_le_of_imp p q l (fun b hb => h b (List.mem_cons_of_mem w hb))
      simp only [List.length_cons]
      omega
    · have ih' := ih hm' hpw hqw (fun b hb => h b (List.mem_cons_of_mem a hb))
      by_cases hq : q a = true
      · rw [List.filter_cons, List.filter_cons, if_pos hq,
          if_pos (h a (List.mem_cons_self a l) hq)]
        simpa using ih'
      · rw [List.filter_cons, if_neg hq]
        by_cases hp : p a = true
        · rw [List.filter_cons, if_pos hp]
          exact lt_of_lt_of_le ih' (by simp)
        · rw [List.filter_cons, if_neg hp]
          exact ih'

/-- Walk measure: the number of arcs whose source rank is at least the
 rank of the current node. -/
def muArcs (rank : Nat → Int) (arcs : List (Nat × Nat)) (x : Nat) : Nat :=
  (arcs.filter (fun a => decide (rank x ≤ rank a.1))).length

theorem muArcs_le_length (rank : Nat → Int) (arcs : List (Nat × Nat)) (x : Nat) :
    muArcs rank arcs x ≤ arcs.length :=
  List.length_filter_le _ arcs

/-- Following an arc strictly decreases the walk measure when ranks
 increase along arcs. -/
theorem muArcs_lt (rank : Nat → Int) (arcs : List (Nat × Nat))
    (hrank : ∀ a ∈ arcs, rank a.1 < rank a.2) (x y : Nat)
    (hxy : (x, y) ∈ arcs) : muArcs rank arcs y < muArcs rank arcs x := by
  have hr : rank x < rank y := hrank (x, y) hxy
  unfold muArcs
  apply length_filter_lt_of_imp _ _ (x, y) arcs hxy
  · simp
  · simp only [decide_eq_false_iff_not]
    simp only [not_le]
    exact hr
  · intro b _ hb
    simp only [decide_eq_true_eq] at hb ⊢
    omega

/-- With ample fuel relative to the walk measure, the fuel amount does
 not affect the walk's endpoint. -/
theorem followEnd_fuel_irrel (rank : Nat → Int) (arcs : List (Nat × Nat))
    (hrank : ∀ a ∈ arcs, rank a.1 < rank a.2) :
    ∀ (f₁ f₂ x : Nat), muArcs rank arcs x < f₁ → muArcs rank arcs x < f₂ →
      followEnd arcs f₁ x = followEnd arcs f₂ x := by
  intro f₁
  induction f₁ with
  | zero => intro f₂ x h1 _; omega
  | succ g ih =>
    intro f₂ x h1 h2
    cases f₂ with
    | zero => omega
    | succ g2 =>
      cases hsucc : successorsOf arcs x with
      | nil => simp only [followEnd, hsucc]
      | cons y ys =>
        have hxy : (x, y) ∈ arcs :=
          mem_of_mem_successorsOf arcs x y (by rw [hsucc]; exact List.mem_cons_self y ys)
        have hmu := muArcs_lt rank arcs hrank x y hxy
        simp only [followEnd, hsucc]
        exact ih g2 y (by omega) (by omega)

/-- Following one arc shifts the chain end: source and target of an arc
 lie on the same chain. -/
theorem chainEnd_step (rank : Nat → Int) (arcs : List (Nat × Nat))
    (hsrc : arcs.Pairwise (fun a b => a.1 ≠ b.1))
    (hrank : ∀ a ∈ arcs, rank a.1 < rank a.2) (x y : Nat)
    (hxy : (x, y) ∈ arcs) : chainEnd arcs x = chainEnd arcs y := by
  unfold chainEnd
  have hsucc : successorsOf arcs x = [y] := successorsOf_eq_single arcs hsrc x y hxy
  have h1 : followEnd arcs (arcs.length + 1) x = followEnd arcs arcs.length y := by
    simp only [followEnd, hsucc]
  rw [h1]
  have hmu := muArcs_lt rank arcs hrank x y hxy
  have hle := muArcs_le_length rank arcs x
  exact followEnd_fuel_irrel rank arcs hrank arcs.length (arcs.length + 1) y
    (by omega) (by omega)

/-- The endpoint of any walk is the walk's start or the target of some
 arc. -/
theorem followEnd_enter (arcs' : List (Nat × Nat)) :
    ∀ (f x : Nat), followEnd arcs' f x = x ∨ ∃ w, (w, followEnd arcs' f x) ∈ arcs' := by
  intro f
  induction f with
  | zero => intro x; exact Or.inl rfl
  | succ g ih =>
    intro x
    cases hsucc : successorsOf arcs' x with
    | nil =>
      exact Or.inl (by simp only [followEnd, hsucc])
    | cons y ys =>
      have hxy : (x, y) ∈ arcs' :=
        mem_of_mem_successorsOf arcs' x y (by rw [hsucc]; exact List.mem_cons_self y ys)
      simp only [followEnd, hsucc]
      rcases ih y with h | ⟨w, hw⟩
      · rw [h]
        exact Or.inr ⟨x, hxy⟩
      · exact Or.inr ⟨w, hw⟩

/-- Walking backwards does not change the chain end. -/
theorem chainEnd_revWalk (rank : Nat → Int) (arcs : List (Nat × Nat))
    (hsrc : arcs.Pairwise (fun a b => a.1 ≠ b.1))
    (hrank : ∀ a ∈ arcs, rank a.1 < rank a.2) :
    ∀ (f x : Nat), chainEnd arcs (followEnd (revArcs arcs) f x) = chainEnd arcs x := by
  intro f
  induction f with
  | zero => intro x; rfl
  | succ g ih =>
    intro x
    cases hsucc : successorsOf (revArcs arcs) x with
    | nil => simp only [followEnd, hsucc]
    | cons w ws =>
      have hwx : (x, w) ∈ revArcs arcs :=
        mem_of_mem_successorsOf (revArcs arcs) x w
          (by rw [hsucc]; exact List.mem_cons_self w ws)
      have hfwd : (w, x) ∈ arcs := mem_arcs_of_mem_revArcs arcs x w hwx
      simp only [followEnd, hsucc]
      rw [ih w]
      exact chainEnd_step rank arcs hsrc hrank w x hfwd

/-- A cell write either leaves a read unchanged or yields the written
 value. -/
theorem getCell_setCell_or (m : Mat) (i j : Nat) (v : Int) (a b : Nat) :
    getCell (setCell m i j v) a b = getCell m a b ∨
    getCell (setCell m i j v) a b = v := by
  unfold setCell getCell
  by_cases hia : i = a
  · subst hia
    by_cases hi : i < m.length
    · rw [List.getD_eq_getElem?_getD (m.set i ((m.getD i []).set j v)) i [],
        List.getElem?_set_eq_of_lt _ hi, Option.getD_some]
      by_cases hjb : j = b
      · subst hjb
        by_cases hj : j < (m.getD i []).length
        · rw [List.getD_eq_getElem?_getD ((m.getD i []).set j v) j 0,
            List.getElem?_set_eq_of_lt _ hj, Option.getD_some]
          exact Or.inr rfl
        · rw [List.set_eq_of_length_le (le_of_not_lt hj)]
          exact Or.inl rfl
      · rw [List.getD_eq_getElem?_getD ((m.getD i []).set j v) b 0,
          List.getElem?_set_ne hjb, ← List.getD_eq_getElem?_getD]
        exact Or.inl rfl
    · rw [List.set_eq_of_length_le (le_of_not_lt hi)]
      exact Or.inl rfl
  · rw [List.getD_eq_getElem?_getD (m.set i ((m.getD i []).set j v)) a [],
      List.getElem?_set_ne hia, ← List.getD_eq_getElem?_getD]
    exact Or.inl rfl

/-- An in-range cell write is read back. -/
theorem getCell_setCell_self (m : Mat) (i j : Nat) (v : Int)
    (hi : i < m.length) (hj : j < (m.getD i []).length) :
    getCell (setCell m i j v) i j = v := by
  unfold setCell getCell
  rw [List.getD_eq_getElem?_getD (m.set i ((m.getD i []).set j v)) i [],
    List.getElem?_set_eq_of_lt _ hi, Option.getD_some,
    List.getD_eq_getElem?_getD ((m.getD i []).set j v) j 0,
    List.getElem?_set_eq_of_lt _ hj, Option.getD_some]

/-- A cell write preserves the square shape of the matrix. -/
theorem setCell_shape (N : Nat) (m : Mat) (i j : Nat) (v : Int)
    (h1 : m.length = N) (h2 : ∀ row ∈ m, row.length = N) :
    (setCell m i j v).length = N ∧ ∀ row ∈ setCell m i j v, row.length = N := by
  unfold setCell
  by_cases hi : i < m.length
  · refine ⟨by rw [List.length_set]; exact h1, ?_⟩
    intro row hrow
    rcases List.mem_or_eq_of_mem_set hrow with hm | he
    · exact h2 row hm
    · rw [he, List.length_set]
      have : m.getD i [] = m[i] := by
        rw [List.getD_eq_getElem?_getD m i [], List.getElem?_eq_getElem hi,
          Option.getD_some]
      rw [this]
      exact h2 m[i] (List.getElem_mem hi)
  · rw [List.set_eq_of_length_le (le_of_not_lt hi)]
    exact ⟨h1, h2⟩

/-- In-range rows of a square matrix have the matrix's length. -/
theorem getD_row_length (N : Nat) (m : Mat) (e : Nat)
    (h1 : m.length = N) (h2 : ∀ row ∈ m, row.length = N) (he : e < N) :
    (m.getD e []).length = N := by
  have he' : e < m.length := by omega
  rw [List.getD_eq_getElem?_getD m e [], List.getElem?_eq_getElem he',
    Option.getD_some]
  exact h2 m[e] (List.getElem_mem he')

/-- One `blockSubtours` iteration either leaves a cell unchanged or
 writes the exclusion sentinel into it. -/
theorem blockStep_cell_or (arcs : List (Nat × Nat)) (acc : Mat × List (Nat × Nat))
    (a : Nat × Nat) (e s : Nat) :
    getCell (blockStep arcs acc a).1 e s = getCell acc.1 e s ∨
    getCell (blockStep arcs acc a).1 e s = EXC := by
  unfold blockStep
  dsimp only
  split
  · exact getCell_setCell_or acc.1 _ _ EXC e s
  · exact Or.inl rfl

theorem blockStep_preserves_notINF (arcs : List (Nat × Nat))
    (acc : Mat × List (Nat × Nat)) (a : Nat × Nat) (e s : Nat)
    (h : getCell acc.1 e s ≠ INF) :
    getCell (blockStep arcs acc a).1 e s ≠ INF := by
  rcases blockStep_cell_or arcs acc a e s with h' | h' <;> rw [h']
  · exact h
  · decide

theorem blockStep_preserves_EXC (arcs : List (Nat × Nat))
    (acc : Mat × List (Nat × Nat)) (a : Nat × Nat) (e s : Nat)
    (h : getCell acc.1 e s = EXC) :
    getCell (blockStep arcs acc a).1 e s = EXC := by
  rcases blockStep_cell_or arcs acc a e s with h' | h' <;> rw [h']
  exact h

/-- One `blockSubtours` iteration preserves the square shape. -/
theorem blockStep_shape (N : Nat) (arcs : List (Nat × Nat))
    (acc : Mat × List (Nat × Nat)) (a : Nat × Nat)
    (h1 : acc.1.length = N) (h2 : ∀ row ∈ acc.1, row.length = N) :
    (blockStep arcs acc a).1.length = N ∧
      ∀ row ∈ (blockStep arcs acc a).1, row.length = N := by
  unfold blockStep
  dsimp only
  split
  · exact setCell_shape N acc.1 _ _ EXC h1 h2
  · exact ⟨h1, h2⟩

/-- Processing the arc whose source is `s` and whose chain ends at `e`
 leaves the cell `(e, s)` equal to the exclusion sentinel. -/
theorem blockStep_writes (arcs : List (Nat × Nat)) (acc : Mat × List (Nat × Nat))
    (s t e : Nat) (he : followEnd arcs (arcs.length + 1) t = e)
    (hnotinf : getCell acc.1 e s ≠ INF)
    (heR : e < acc.1.length) (hsR : s < (acc.1.getD e []).length) :
    getCell (blockStep arcs acc (s, t)).1 e s = EXC := by
  unfold blockStep
  dsimp only
  rw [he]
  split
  · exact getCell_setCell_self acc.1 e s EXC heR hsR
  · rename_i hcond
    by_cases hc : getCell acc.1 e s = EXC
    · exact hc
    · exfalso
      rcases not_and_or.mp hcond with h | h
      · exact h hc
      · exact hnotinf (not_not.mp h)

/-- Folding the blocking step over a list containing an arc from `s`
 whose chain ends at `e` turns the cell `(e, s)` into the exclusion
 sentinel, provided the cell is not the forbidden sentinel. -/
theorem foldl_blockStep_writes (arcs : List (Nat × Nat)) (e s N : Nat)
    (heN : e < N) (hsN : s < N) :
    ∀ (l : List (Nat × Nat)) (acc : Mat × List (Nat × Nat)),
      acc.1.length = N → (∀ row ∈ acc.1, row.length = N) →
      (∃ t, (s, t) ∈ l ∧ followEnd arcs (arcs.length + 1) t = e) →
      getCell acc.1 e s ≠ INF →
      getCell (l.foldl (blockStep arcs) acc).1 e s = EXC := by
  intro l
  induction l with
  | nil =>
    intro acc _ _ hex _
    rcases hex with ⟨t, ht, _⟩
    cases ht
  | cons a l ih =>
    intro acc hlen hrows hex hnotinf
    rcases hex with ⟨t, ht, hte⟩
    rw [List.foldl_cons]
    rcases List.mem_cons.mp ht with rfl | ht'
    · have hwrite : getCell (blockStep arcs acc (s, t)).1 e s = EXC :=
        blockStep_writes arcs acc s t e hte hnotinf (by omega)
          (by rw [getD_row_length N acc.1 e hlen hrows heN]; exact hsN)
      exact foldl_inv (fun b => getCell b.1 e s = EXC) (blockStep arcs) l _ hwrite
        (fun b a' _ hb => blockStep_preserves_EXC arcs b a' e s hb)
    · rcases blockStep_shape N arcs acc a hlen hrows with ⟨hlen', hrows'⟩
      exact ih (blockStep arcs acc a) hlen' hrows' ⟨t, ht', hte⟩
        (blockStep_preserves_notINF arcs acc a e s hnotinf)

/-- C6: when the include branch for a tentatively included arc `(u, v)`
 is built, the Connectivity Guard sets the closing arc — from the end of
 the chain containing `v` to the start of the chain containing `u`, both
 located by following single-outdegree links — to the exclusion sentinel
 in the include child's candidate matrix.  (`blockSubtours` performs this
 inside the include branch itself, before the child's single reduction
 and push: a side effect, not a separate branch node.)  The arc set is
 one reaching the guard in the engine: pairwise distinct sources,
 acyclic (witnessed by the rank certificate), endpoints in range, and
 the closing cell not holding the forbidden sentinel. -/
theorem claim6_guard_blocks_closing_arc (m : Mat) (arcs : List (Nat × Nat))
    (u v : Nat) (rank : Nat → Int)
    (hsrc : arcs.Pairwise (fun a b => a.1 ≠ b.1))
    (hrank : ∀ a ∈ arcs, rank a.1 < rank a.2)
    (huv : (u, v) ∈ arcs)
    (hbound : ∀ a ∈ arcs, a.1 < m.length ∧ a.2 < m.length)
    (hsq : ∀ row ∈ m, row.length = m.length)
    (hnotinf : getCell m (chainEnd arcs v) (chainStart arcs u) ≠ INF) :
    getCell (blockSubtours m arcs).1 (chainEnd arcs v) (chainStart arcs u) = EXC := by
  obtain ⟨t, hst⟩ : ∃ t, (chainStart arcs u, t) ∈ arcs := by
    rcases followEnd_enter (revArcs arcs) (arcs.length + 1) u with h | ⟨w, hw⟩
    · refine ⟨v, ?_⟩
      unfold chainStart
      rw [h]
      exact huv
    · exact ⟨w, mem_arcs_of_mem_revArcs arcs w (chainStart arcs u) hw⟩
  have hesu : chainEnd arcs (chainStart arcs u) = chainEnd arcs u :=
    chainEnd_revWalk rank arcs hsrc hrank (arcs.length + 1) u
  have heuv : chainEnd arcs u = chainEnd arcs v :=
    chainEnd_step rank arcs hsrc hrank u v huv
  have het : followEnd arcs (arcs.length + 1) t = chainEnd arcs v := by
    have h1 : chainEnd arcs (chainStart arcs u) = chainEnd arcs t :=
      chainEnd_step rank arcs hsrc hrank (chainStart arcs u) t hst
    have h2 : chainEnd arcs t = chainEnd arcs v := by rw [← h1, hesu, heuv]
    exact h2
  have heR : chainEnd arcs v < m.length := by
    rcases followEnd_enter arcs (arcs.length + 1) v with h | ⟨w, hw⟩
    · have h' : chainEnd arcs v = v := h
      rw [h']
      exact (hbound (u, v) huv).2
    · exact (hbound (w, chainEnd arcs v) hw).2
  have hsR : chainStart arcs u < m.length := (hbound (chainStart arcs u, t) hst).1
  have hne : arcs.isEmpty = false := by
    cases arcs with
    | nil => cases huv
    | cons a l => rfl
  unfold blockSubtours
  rw [if_neg (by rw [hne]; exact Bool.false_ne_true)]
  exact foldl_blockStep_writes arcs (chainEnd arcs v) (chainStart arcs u) m.length
    heR hsR arcs (m, []) rfl hsq ⟨t, hst, het⟩ hnotinf

/-- Concrete arc set for the C6 witness: the chain `0 → 1 → 2`. -/
def witnessArcsC6 : List (Nat × Nat) := [(0, 1), (1, 2)]

/-- Concrete matrix for the C6 witness. -/
def witnessMatC6 : Mat := [[5, 5, 5], [5, 5, 5], [5, 5, 5]]

/-- Witness for C6: including `(1, 2)` after `(0, 1)` blocks the closing
 arc `(2, 0)` in the candidate matrix. -/
theorem claim6_witness :
    witnessArcsC6.Pairwise (fun a b => a.1 ≠ b.1) ∧
    (1, 2) ∈ witnessArcsC6 ∧
    getCell (blockSubtours witnessMatC6 witnessArcsC6).1
      (chainEnd witnessArcsC6 2) (chainStart witnessArcsC6 1) = EXC :=
  ⟨by decide, by decide,
    claim6_guard_blocks_closing_arc witnessMatC6 witnessArcsC6 1 2
      (fun x => (x : Int)) (by decide) (by decide) (by decide) (by decide)
      (by decide) (by decide)⟩

end Little
